import Mathlib

/-!
Verification of the neopixel-effects engine (`neopixel_effects/controller.py`,
`neopixel_effects/effects.py`) against its natural-language specification.

The Python code is shallowly embedded: MicroPython floats become exact
rationals `ℚ` (times, positions, pixel intensities), except where the source
applies transcendental library functions (`np.exp`, `np.sin`), in which case
values live in `ℝ`.  `np` arrays of shape `(num_pixels, num_channels)` become
`List (List _)` (outer list = pixel axis).  Fallible float operations
(Python's `ZeroDivisionError`) are modelled in `Except`.
-/

namespace NeopixelEffects

/-- A device frame: one row per pixel, one entry per channel
(embedding of the 2-D `np` arrays of shape `device.state_shape`). -/
abbrev Frame (α : Type) := List (List α)

/-- Embedding of `np.zeros((n, c))`. -/
def npZeros (α : Type) [Zero α] (n c : ℕ) : Frame α :=
  List.replicate n (List.replicate c 0)

/-- Element-wise addition of two frames; together with a fold this embeds
`np.sum(state_matrix, axis=0)` (controller.py line 55). -/
def addF (a b : Frame ℚ) : Frame ℚ :=
  List.zipWith (List.zipWith (· + ·)) a b

/-- Python's builtin `min` on two floats (first argument wins ties). -/
def pyMin (a b : ℚ) : ℚ := if a ≤ b then a else b

/-- Python's builtin `max` on two floats (first argument wins ties). -/
def pyMax (a b : ℚ) : ℚ := if b ≤ a then a else b

/-- Embedding of `np.clip(x, 0, 255)` on one element: values below 0 are
raised to 0 and values above 255 are lowered to 255. -/
def clipVal (x : ℚ) : ℚ := pyMin (pyMax x 0) 255

/-- Embedding of `np.clip(state_matrix, 0, 255)` (controller.py line 56). -/
def clipF (f : Frame ℚ) : Frame ℚ := f.map (fun row => row.map clipVal)

/-- The frame has exactly the device shape `(n, c)`. -/
def FrameShape (f : Frame ℚ) (n c : ℕ) : Prop :=
  f.length = n ∧ ∀ row ∈ f, row.length = c

instance (f : Frame ℚ) (n c : ℕ) : Decidable (FrameShape f n c) := by
  unfold FrameShape; infer_instance

/-- Python's float `%` operator for a nonzero modulus: the result takes the
sign of the divisor, so `x % m = x - m * floor (x / m)`. -/
def pyMod (x m : ℚ) : ℚ := x - m * ⌊x / m⌋

/-- Python's `int()` on a float: truncation toward zero. -/
def pyInt (x : ℚ) : ℤ := if 0 ≤ x then ⌊x⌋ else ⌈x⌉

/-! ## `effects.py`: the moving-effect families -/

/-- Embedding of `MovingEffect.Spec` (effects.py lines 68-79): the shared
parameters of the moving-effect families.  `rgb_color` is kept as a list of
channel intensities. -/
structure MovingSpec where
  total_effect_time : ℚ
  rgb_color : List ℚ
  reversed : Bool
  indefinite_pingpong : Bool
deriving DecidableEq

/-- The position computation of `MovingEffect.__call__` (effects.py lines
92-98), reached when the effect has not completed: `frac`/pingpong
reflection, then the clamp `min(current_pos, num_pixels - 1)`. -/
def movingPos (spec : MovingSpec) (num_pixels : ℕ) (relative_time_secs : ℚ) : ℚ :=
  let frac := relative_time_secs / spec.total_effect_time
  let current_pos :=
    if spec.indefinite_pingpong then
      let f2 := pyMod frac 2
      (num_pixels : ℚ) * (f2 - 2 * pyMax (f2 - 1) 0)
    else
      (num_pixels : ℚ) * relative_time_secs / spec.total_effect_time
  pyMin current_pos ((num_pixels : ℚ) - 1)

/-- Embedding of `MovingEffect.__call__` (effects.py lines 83-103),
parameterized by the concrete family's `_calculate_state` method (Python
dispatches through subclassing).  Returns the frame together with a flag
recording whether `self._set_completed()` was called during this
invocation.  The source always returns an ndarray (never `None`). -/
def movingCallWith {α : Type} [Zero α] (calcState : ℚ → ℕ → ℕ → Frame α)
    (spec : MovingSpec) (num_pixels num_channels : ℕ)
    (relative_time_secs : ℚ) : Frame α × Bool :=
  if ¬ spec.indefinite_pingpong ∧ spec.total_effect_time < relative_time_secs then
    (npZeros α num_pixels num_channels, true)
  else
    let current_state := calcState (movingPos spec num_pixels relative_time_secs)
      num_pixels num_channels
    ((if spec.reversed then current_state.reverse else current_state), false)

/-- Embedding of `SinglePixelMovingEffect._calculate_state` (effects.py lines
112-115): a zero frame whose row `int(current_pos)` is set to `rgb_color`.
All callers clamp `current_pos` into `[0, num_pixels - 1]`, so Python's
negative-index wrap-around and `IndexError` cases are unreachable and not
modelled. -/
def SinglePixelMovingEffect.calculateState (rgb_color : List ℚ)
    (current_pos : ℚ) (num_pixels num_channels : ℕ) : Frame ℚ :=
  (List.range num_pixels).map (fun (i : ℕ) =>
    if (i : ℤ) = pyInt current_pos then rgb_color
    else List.replicate num_channels 0)

/-- Embedding of `GaussianMovingEffect._calculate_state` together with
`_normed_gaussian` (effects.py lines 125-133): pixel `i` carries
`rgb_color * exp(-0.5 * ((i - current_pos) / sigma) ** 2)`. -/
noncomputable def GaussianMovingEffect.calculateState (rgb_color : List ℚ)
    (sigma : ℚ) (current_pos : ℚ) (num_pixels num_channels : ℕ) : Frame ℝ :=
  (List.range num_pixels).map (fun (i : ℕ) =>
    rgb_color.map (fun (ch : ℚ) =>
      (ch : ℝ) * Real.exp (-(1 / 2) *
        (((i : ℝ) - (current_pos : ℝ)) / (sigma : ℝ)) ^ 2)))

/-- Embedding of `DecayMovingEffect._calculate_state` (effects.py lines
143-148): pixel `i` carries `rgb_color * decay_factor ** (current_pos - i)`;
the source sets the exponent to `np.inf` when `current_pos - i < 0`, and
`decay_factor ** inf` evaluates to `0` for the in-domain decay factors in
`(0, 1)`, so that branch is embedded as weight `0`. -/
noncomputable def DecayMovingEffect.calculateState (rgb_color : List ℚ)
    (decay_factor : ℚ) (current_pos : ℚ) (num_pixels num_channels : ℕ) :
    Frame ℝ :=
  (List.range num_pixels).map (fun (i : ℕ) =>
    let d := current_pos - (i : ℚ)
    let weight : ℝ := if d < 0 then 0 else (decay_factor : ℝ) ^ (d : ℝ)
    rgb_color.map (fun (ch : ℚ) => (ch : ℝ) * weight))

/-! ## `effects.py`: the sinus effect -/

/-- Embedding of `SinusEffect.Spec` (effects.py lines 153-159). -/
structure SinusSpec where
  base_color : List ℚ
  additional_color : List ℚ
  freq : ℚ
  cycle_time : ℚ
deriving DecidableEq

/-- Embedding of `np.linspace(a, b, n)[i]` with the default inclusive
endpoint: sample `i` of `n` evenly spaced values from `a` to `b`. -/
noncomputable def npLinspace (a b : ℝ) (n : ℕ) (i : ℕ) : ℝ :=
  if n ≤ 1 then a else a + (i : ℝ) * (b - a) / ((n : ℝ) - 1)

/-- Embedding of `SinusEffect.__call__` (effects.py lines 161-173).  By
Python operator precedence, `2 * np.pi * (t / cycle_time) % 1.0` parses as
`(2 * pi * (t / cycle_time)) % 1.0`, and `% 1.0` on a float is `Int.fract`.
The effect never calls `_set_completed`, so only the frame is returned. -/
noncomputable def SinusEffect.call (spec : SinusSpec)
    (num_pixels num_channels : ℕ) (relative_time_secs : ℝ) : Frame ℝ :=
  let rel_cycle : ℝ :=
    Int.fract (2 * Real.pi * (relative_time_secs / (spec.cycle_time : ℝ)))
  let sin_values : ℕ → ℝ := fun i =>
    0.5 + 0.5 * Real.sin (npLinspace rel_cycle
      (rel_cycle + 2 * Real.pi * (spec.freq : ℝ)) num_pixels i)
  (List.range num_pixels).map (fun (i : ℕ) =>
    List.zipWith (fun (bc : ℚ) (ac : ℚ) => (bc : ℝ) + sin_values i * (ac : ℝ))
      spec.base_color spec.additional_color)

/-! ## `controller.py`: per-device aggregation and the scheduler

`ControllerDevice.update` is embedded generically in the effect type `E`
(Python dispatches on the stored objects' `is_completed` property and
`__call__` method): `eval e t` returns `none` to model an effect call
returning `None`, and otherwise the produced frame together with the
updated effect object (whose completion flag `__call__` may have set).
The source calls `effect(...)` twice with the same argument (controller.py
lines 45 and 48); effect calls are pure in this embedding so the second
call is elided.  Deleting the current key of a MicroPython dict while
iterating it leaves the remaining items of the traversal intact, so the
pass visits every original entry exactly once; the removal order is
recorded separately by `ControllerDevice.updateEvents` below. -/

namespace NeoPixelEffectsController

/-- Embedding of `ControllerDevice.update` (controller.py lines 35-58) for a
device of shape `(n, c)`: `active_effects` pairs each effect with its start
time in microseconds, `current_ticks_us` is the tick timestamp.  Returns the
frame pushed to `device.update_state` and the surviving `active_effects`.
Entries marked for removal leave their row of `state_matrix` at zero, as in
the source. -/
def ControllerDevice.update {E : Type}
    (eval : E → ℚ → Option (Frame ℚ × E)) (is_completed : E → Bool)
    (active_effects : List (E × ℚ)) (current_ticks_us : ℚ) (n c : ℕ) :
    Frame ℚ × List (E × ℚ) :=
  let results := active_effects.map (fun es =>
    if is_completed es.1 then (npZeros ℚ n c, none)
    else
      match eval es.1 ((current_ticks_us - es.2) / 1000000) with
      | none => (npZeros ℚ n c, none)
      | some (fr, e2) => (fr, some (e2, es.2)))
  let state_matrix := results.foldl (fun acc r => addF acc r.1) (npZeros ℚ n c)
  (clipF state_matrix, results.filterMap (fun r => r.2))

/-- The frames of the effects the aggregation pass does not mark for
removal, in pass order: the spec's "non-removed effect contributions"
(spec section 4.4 steps 3-4). -/
def ControllerDevice.contributions {E : Type}
    (eval : E → ℚ → Option (Frame ℚ × E)) (is_completed : E → Bool)
    (active_effects : List (E × ℚ)) (current_ticks_us : ℚ) : List (Frame ℚ) :=
  active_effects.filterMap (fun es =>
    if is_completed es.1 then none
    else (eval es.1 ((current_ticks_us - es.2) / 1000000)).map (fun r => r.1))

/-- The observable order of operations inside one `ControllerDevice.update`
pass. -/
inductive UpdEvent where
  /-- the for-loop over `active_effects.items()` visits entry `i` -/
  | visit (i : ℕ)
  /-- the statement `del self.active_effects[effect]` executes for entry `i`
  (controller.py line 52, inside the loop body) -/
  | removeActive (i : ℕ)
  /-- the for-loop over `active_effects.items()` finishes -/
  | iterEnd
  /-- the call `self.device.update_state(state_matrix)` executes -/
  | push
deriving DecidableEq

/-- Helper for `ControllerDevice.updateEvents`: the events of the for-loop
body (controller.py lines 42-52), entry `i` onward. -/
def ControllerDevice.updateEventsAux {E : Type}
    (eval : E → ℚ → Option (Frame ℚ × E)) (is_completed : E → Bool)
    (current_ticks_us : ℚ) : ℕ → List (E × ℚ) → List UpdEvent
  | _, [] => []
  | i, es :: rest =>
      .visit i ::
        ((if is_completed es.1
              || (eval es.1 ((current_ticks_us - es.2) / 1000000)).isNone
          then [.removeActive i] else [])
          ++ updateEventsAux eval is_completed current_ticks_us (i + 1) rest)

/-- The order of operations performed by `ControllerDevice.update`
(controller.py lines 35-58): visit each entry (removing it inside the loop
body when its effect is completed or returned `None`), finish the loop,
push the frame. -/
def ControllerDevice.updateEvents {E : Type}
    (eval : E → ℚ → Option (Frame ℚ × E)) (is_completed : E → Bool)
    (active_effects : List (E × ℚ)) (current_ticks_us : ℚ) : List UpdEvent :=
  ControllerDevice.updateEventsAux eval is_completed current_ticks_us 0
      active_effects
    ++ [.iterEnd, .push]

/-- Embedding of `ControllerDevice.update` when effect calls may raise (embedding of the
same source lines under Python exception semantics: the controller has no
`try`/`except`, so the first raise aborts the pass): per-entry rows of
`state_matrix`, or the propagated exception. -/
def ControllerDevice.updateResultsE {E : Type}
    (eval : E → ℚ → Except Unit (Option (Frame ℚ × E)))
    (is_completed : E → Bool) (current_ticks_us : ℚ) (n c : ℕ) :
    List (E × ℚ) → Except Unit (List (Frame ℚ × Option (E × ℚ)))
  | [] => .ok []
  | es :: rest =>
    if is_completed es.1 then
      (updateResultsE eval is_completed current_ticks_us n c rest).map
        (fun rs => (npZeros ℚ n c, none) :: rs)
    else
      match eval es.1 ((current_ticks_us - es.2) / 1000000) with
      | .error u => .error u
      | .ok none =>
          (updateResultsE eval is_completed current_ticks_us n c rest).map
            (fun rs => (npZeros ℚ n c, none) :: rs)
      | .ok (some (fr, e2)) =>
          (updateResultsE eval is_completed current_ticks_us n c rest).map
            (fun rs => (fr, some (e2, es.2)) :: rs)

/-- Embedding of `ControllerDevice.update` under exception semantics: an uncaught raise
from an effect call aborts the pass before `device.update_state` runs. -/
def ControllerDevice.updateE {E : Type}
    (eval : E → ℚ → Except Unit (Option (Frame ℚ × E)))
    (is_completed : E → Bool) (active_effects : List (E × ℚ))
    (current_ticks_us : ℚ) (n c : ℕ) :
    Except Unit (Frame ℚ × List (E × ℚ)) :=
  (ControllerDevice.updateResultsE eval is_completed current_ticks_us n c
      active_effects).map
    (fun results =>
      (clipF (results.foldl (fun acc r => addF acc r.1) (npZeros ℚ n c)),
        results.filterMap (fun r => r.2)))

/-- One scheduler tick over all devices (`start._start`, controller.py lines
74-76) under exception semantics: `ControllerDevice.update` on each device
in order; an uncaught raise aborts the tick, skipping the remaining
devices. -/
def updateAllE {E : Type}
    (eval : E → ℚ → Except Unit (Option (Frame ℚ × E)))
    (is_completed : E → Bool) (current_ticks_us : ℚ) (n c : ℕ) :
    List (List (E × ℚ)) → Except Unit (List (Frame ℚ × List (E × ℚ)))
  | [] => .ok []
  | d :: rest =>
    match ControllerDevice.updateE eval is_completed d current_ticks_us n c with
    | .error u => .error u
    | .ok r =>
        (updateAllE eval is_completed current_ticks_us n c rest).map
          (fun rs => r :: rs)

/-- The scheduler loop (`start._start`, controller.py lines 70-81) run for
`fuel` ticks under exception semantics, idealizing each tick as starting one
period after the previous one (the sleep-time computation does not interact
with faults).  An uncaught raise terminates the loop task with the fault. -/
def runE {E : Type}
    (eval : E → ℚ → Except Unit (Option (Frame ℚ × E)))
    (is_completed : E → Bool) (n c : ℕ) (period_us : ℚ) :
    ℕ → List (List (E × ℚ)) → ℚ → Except Unit (List (List (E × ℚ)))
  | 0, devs, _ => .ok devs
  | fuel + 1, devs, now =>
    match updateAllE eval is_completed now n c devs with
    | .error u => .error u
    | .ok rs =>
        runE eval is_completed n c period_us fuel (rs.map (fun r => r.2))
          (now + period_us)

end NeoPixelEffectsController

/-- A bound `MovingEffect` instance (effects.py `Effect`, lines 30-54, with
a `MovingEffect` subclass): its spec and the `is_set` state of its
`_completion_event`.  The bound device is identified by the shape passed at
call time; the concrete family's `_calculate_state` is fixed by
`Effect.call` (single-pixel family) or supplied per spec to
`Effect.callWith`, mirroring Python's subclass dispatch. -/
structure Effect where
  spec : MovingSpec
  is_completed : Bool
deriving DecidableEq

/-- Embedding of `SinglePixelMovingEffect.__call__` on a bound effect for a device of
shape `(n, c)`: the frame, and the effect with its completion event updated
(`Event.set` is sticky). -/
def Effect.call (n c : ℕ) (e : Effect) (relative_time_secs : ℚ) :
    Frame ℚ × Effect :=
  let r := movingCallWith (SinglePixelMovingEffect.calculateState
    e.spec.rgb_color) e.spec n c relative_time_secs
  (r.1, ⟨e.spec, e.is_completed || r.2⟩)

/-- The function `Effect.call` packaged for `ControllerDevice.update`: a
`MovingEffect.__call__` always returns an ndarray, never `None`. -/
def Effect.evalOpt (n c : ℕ) (e : Effect) (relative_time_secs : ℚ) :
    Option (Frame ℚ × Effect) :=
  some (Effect.call n c e relative_time_secs)

/-- Embedding of `MovingEffect.__call__` on a bound effect of an arbitrary
family: `calcOf` yields the family's `_calculate_state` from the effect's
spec (Python resolves it by subclass dispatch).  Returns the frame and the
effect with its completion event updated (`Event.set` is sticky). -/
def Effect.callWith (calcOf : MovingSpec → ℚ → ℕ → ℕ → Frame ℚ)
    (n c : ℕ) (e : Effect) (relative_time_secs : ℚ) : Frame ℚ × Effect :=
  let r := movingCallWith (calcOf e.spec) e.spec n c relative_time_secs
  (r.1, ⟨e.spec, e.is_completed || r.2⟩)

/-- The function `Effect.callWith` packaged for `ControllerDevice.update`:
a `MovingEffect.__call__` always returns an ndarray, never `None`. -/
def Effect.evalOptWith (calcOf : MovingSpec → ℚ → ℕ → ℕ → Frame ℚ)
    (n c : ℕ) (e : Effect) (relative_time_secs : ℚ) :
    Option (Frame ℚ × Effect) :=
  some (Effect.callWith calcOf n c e relative_time_secs)

/-! ## Shared lemmas -/

/-- A Python `ZeroDivisionError`. -/
inductive EvalErr where
  | zeroDivision
deriving DecidableEq

/-- Float division under Python exception semantics: dividing by `0.0`
raises `ZeroDivisionError`. -/
def pyDiv (a b : ℚ) : Except EvalErr ℚ :=
  if b = 0 then .error .zeroDivision else .ok (a / b)

/-- Embedding of `MovingEffect.__call__` (effects.py lines 83-103) under exception
semantics.  `frac` (line 92) is computed before the pingpong branch, so a
zero `total_effect_time` raises whenever the completed early-return of line
84 is not taken; in the non-pingpong branch the source recomputes
`num_pixels * relative_time_secs / total_effect_time`, which equals
`num_pixels * frac` exactly and can no longer raise once `frac` has been
obtained. -/
noncomputable def movingCallE
    (calcStateE : ℚ → ℕ → ℕ → Except EvalErr (Frame ℝ)) (spec : MovingSpec)
    (num_pixels num_channels : ℕ) (relative_time_secs : ℚ) :
    Except EvalErr (Frame ℝ × Bool) :=
  if ¬ spec.indefinite_pingpong ∧ spec.total_effect_time < relative_time_secs then
    .ok (npZeros ℝ num_pixels num_channels, true)
  else
    match pyDiv relative_time_secs spec.total_effect_time with
    | .error u => .error u
    | .ok frac =>
      let current_pos :=
        if spec.indefinite_pingpong then
          let f2 := pyMod frac 2
          (num_pixels : ℚ) * (f2 - 2 * pyMax (f2 - 1) 0)
        else (num_pixels : ℚ) * frac
      let pos := pyMin current_pos ((num_pixels : ℚ) - 1)
      match calcStateE pos num_pixels num_channels with
      | .error u => .error u
      | .ok st => .ok ((if spec.reversed then st.reverse else st), false)

/-- Embedding of `GaussianMovingEffect._calculate_state` under exception semantics: the
scalar division `(x - mu) / sigma` raises iff `sigma = 0`; no other
operation of the family can raise. -/
noncomputable def GaussianMovingEffect.calculateStateE (rgb_color : List ℚ)
    (sigma : ℚ) (current_pos : ℚ) (num_pixels num_channels : ℕ) :
    Except EvalErr (Frame ℝ) :=
  if sigma = 0 then .error .zeroDivision
  else .ok (GaussianMovingEffect.calculateState rgb_color sigma current_pos
    num_pixels num_channels)

/-- A concrete `SinusEffect.Spec` with the source's default parameters
(`base_color = (16,16,16)`, `additional_color = (8,8,8)`, `freq = 1`,
`cycle_time = 1`). -/
def sinusSpec0 : SinusSpec := ⟨[16, 16, 16], [8, 8, 8], 1, 1⟩

/-! ## Lemmas and claim theorems -/

/-- The `reversed` flag only post-processes the frame: with the same spec
otherwise, the reversed frame is the pixel-axis reversal of the
non-reversed one (the completed branch returns a palindromic zero frame). -/
theorem movingCallWith_reversed_frame {α : Type} [Zero α]
    (calcState : ℚ → ℕ → ℕ → Frame α) (spec : MovingSpec) (n c : ℕ) (t : ℚ) :
    (movingCallWith calcState { spec with reversed := true } n c t).1
      = ((movingCallWith calcState { spec with reversed := false } n c t).1).reverse := by
  cases hpp : spec.indefinite_pingpong with
  | false =>
    by_cases hlt : spec.total_effect_time < t
    · simp [movingCallWith, hpp, hlt, npZeros, List.reverse_replicate]
    · simp [movingCallWith, movingPos, hpp, hlt]
  | true => simp [movingCallWith, movingPos, hpp]

/-- Row lookup in a `SinglePixelMovingEffect` frame. -/
theorem singlePixel_getElem (color : List ℚ) (pos : ℚ) (n c j : ℕ)
    (hj : j < n) :
    (SinglePixelMovingEffect.calculateState color pos n c)[j]?
      = some (if (j : ℤ) = pyInt pos then color else List.replicate c 0) := by
  unfold SinglePixelMovingEffect.calculateState
  rw [List.getElem?_map, List.getElem?_range hj]
  rfl

/-! ## The claims -/

/-- C5: for every effect family carrying the `reversed` flag (the three
moving-effect families; `SinusEffect.Spec` has no such flag) and every
relative time `t`, the frame of the effect with `reversed` set equals the
pixel-axis reversal of the frame of the otherwise-identical non-reversed
effect at the same `t`. -/
theorem c5_reversed_is_pixel_reversal (spec : MovingSpec)
    (sigma decay_factor : ℚ) (n c : ℕ) (t : ℚ) :
    (movingCallWith (SinglePixelMovingEffect.calculateState spec.rgb_color)
        { spec with reversed := true } n c t).1
      = ((movingCallWith (SinglePixelMovingEffect.calculateState spec.rgb_color)
        { spec with reversed := false } n c t).1).reverse ∧
    (movingCallWith (GaussianMovingEffect.calculateState spec.rgb_color sigma)
        { spec with reversed := true } n c t).1
      = ((movingCallWith (GaussianMovingEffect.calculateState spec.rgb_color sigma)
        { spec with reversed := false } n c t).1).reverse ∧
    (movingCallWith (DecayMovingEffect.calculateState spec.rgb_color decay_factor)
        { spec with reversed := true } n c t).1
      = ((movingCallWith (DecayMovingEffect.calculateState spec.rgb_color decay_factor)
        { spec with reversed := false } n c t).1).reverse :=
  ⟨movingCallWith_reversed_frame _ spec n c t,
    movingCallWith_reversed_frame _ spec n c t,
    movingCallWith_reversed_frame _ spec n c t⟩

/-- C8: in indefinite-pingpong mode with duration `D`, the position computed
at `relative_time = 1.5 * D` equals the position at `0.5 * D` (reflection
with cycle length `2 * D`), and no call ever sets the completion flag,
whatever the family. -/
theorem c8_pingpong_reflection_and_no_completion (D : ℚ) (n : ℕ)
    (color : List ℚ) (rev : Bool) (hD : D ≠ 0) :
    movingPos ⟨D, color, rev, true⟩ n (3 / 2 * D)
      = movingPos ⟨D, color, rev, true⟩ n (1 / 2 * D) ∧
    ∀ (α : Type) (_ : Zero α) (calcState : ℚ → ℕ → ℕ → Frame α) (c : ℕ)
      (t : ℚ), (movingCallWith calcState ⟨D, color, rev, true⟩ n c t).2 = false := by
  constructor
  · have h1 : (3 / 2 * D) / D = 3 / 2 := by
      rw [mul_div_assoc, div_self hD, mul_one]
    have h2 : (1 / 2 * D) / D = 1 / 2 := by
      rw [mul_div_assoc, div_self hD, mul_one]
    simp only [movingPos, h1, h2]
    norm_num [pyMod, pyMax]
  · intro α _ calcState c t
    simp [movingCallWith]

/-- Witness for C8 at `D = 2`, `n = 3`. -/
theorem c8_pingpong_reflection_and_no_completion_witness :
    movingPos ⟨2, [255, 0, 0], false, true⟩ 3 (3 / 2 * 2)
      = movingPos ⟨2, [255, 0, 0], false, true⟩ 3 (1 / 2 * 2) :=
  (c8_pingpong_reflection_and_no_completion 2 3 [255, 0, 0] false
    (by norm_num)).1

/-- C10: a non-pingpong moving effect evaluated exactly at its total
duration is not marked completed (the test is the strict `>`), its position
`num_pixels` is clamped down to `num_pixels - 1`, and the single-pixel
family lights exactly the last pixel with the spec's color. -/
theorem c10_exact_duration_lights_last_pixel (D : ℚ) (n c : ℕ)
    (color : List ℚ) (hD : 0 < D) (hn : 1 ≤ n) :
    (∀ (α : Type) (_ : Zero α) (calcState : ℚ → ℕ → ℕ → Frame α),
        (movingCallWith calcState ⟨D, color, false, false⟩ n c D).2 = false) ∧
    movingPos ⟨D, color, false, false⟩ n D = (n : ℚ) - 1 ∧
    (movingCallWith (SinglePixelMovingEffect.calculateState color)
        ⟨D, color, false, false⟩ n c D).1[n - 1]? = some color ∧
    ∀ j, j < n - 1 →
      (movingCallWith (SinglePixelMovingEffect.calculateState color)
        ⟨D, color, false, false⟩ n c D).1[j]? = some (List.replicate c 0) := by
  have hDne : D ≠ 0 := ne_of_gt hD
  have hn1 : (1 : ℚ) ≤ (n : ℚ) := by exact_mod_cast hn
  have hpos : movingPos ⟨D, color, false, false⟩ n D = (n : ℚ) - 1 := by
    norm_num [movingPos]
    rw [mul_div_assoc, div_self hDne, mul_one, pyMin, if_neg (by linarith)]
  have hidx : pyInt ((n : ℚ) - 1) = ((n - 1 : ℕ) : ℤ) := by
    rw [pyInt, if_pos (by linarith),
      show ((n : ℚ) - 1) = (((n : ℤ) - 1 : ℤ) : ℚ) by push_cast; ring,
      Int.floor_intCast]
    omega
  have hcall : movingCallWith (SinglePixelMovingEffect.calculateState color)
      ⟨D, color, false, false⟩ n c D
      = (SinglePixelMovingEffect.calculateState color ((n : ℚ) - 1) n c,
          false) := by
    norm_num [movingCallWith, hpos]
  refine ⟨?_, hpos, ?_, ?_⟩
  · intro α _ calcState
    norm_num [movingCallWith]
  · rw [hcall, singlePixel_getElem color _ n c (n - 1) (by omega),
      if_pos (by rw [hidx])]
  · intro j hj
    rw [hcall, singlePixel_getElem color _ n c j (by omega),
      if_neg (by rw [hidx]; intro h; omega)]

/-- Witness for C10 at `D = 1`, a 2x3 device, color `(255, 0, 0)`. -/
theorem c10_exact_duration_lights_last_pixel_witness :
    (movingCallWith (SinglePixelMovingEffect.calculateState [255, 0, 0])
        ⟨1, [255, 0, 0], false, false⟩ 2 3 1).1[2 - 1]? = some [255, 0, 0] :=
  (c10_exact_duration_lights_last_pixel 1 2 3 [255, 0, 0] (by norm_num)
    (by norm_num)).2.2.1

/-- C3: a single moving-pixel effect with duration `D` on an `n`-pixel
device, non-reversed and non-pingpong, evaluated at `D / 2`: the completion
flag stays unset, row `min (n / 2) (n - 1)` (the floor of `n * 0.5` clamped
to `n - 1`) carries the spec's color, and every other row is zero; at any
`t > D` the call sets the completion flag and returns the all-zero frame.
The final two conjuncts are the spec's end-to-end 2-pixel scenario at
`t = 0.9` and `t = 1.1` with `D = 1`, color `(255, 0, 0)`. -/
theorem c3_single_pixel_midpoint_and_completion (D : ℚ) (n c : ℕ)
    (color : List ℚ) (hD : 0 < D) (hn : 1 ≤ n) :
    (movingCallWith (SinglePixelMovingEffect.calculateState color)
        ⟨D, color, false, false⟩ n c (D / 2)).2 = false ∧
    (movingCallWith (SinglePixelMovingEffect.calculateState color)
        ⟨D, color, false, false⟩ n c (D / 2)).1[min (n / 2) (n - 1)]?
      = some color ∧
    (∀ j, j < n → j ≠ min (n / 2) (n - 1) →
      (movingCallWith (SinglePixelMovingEffect.calculateState color)
        ⟨D, color, false, false⟩ n c (D / 2)).1[j]?
        = some (List.replicate c 0)) ∧
    (∀ t : ℚ, D < t →
      movingCallWith (SinglePixelMovingEffect.calculateState color)
        ⟨D, color, false, false⟩ n c t = (npZeros ℚ n c, true)) ∧
    movingCallWith (SinglePixelMovingEffect.calculateState [255, 0, 0])
        ⟨1, [255, 0, 0], false, false⟩ 2 3 (9 / 10)
      = ([[0, 0, 0], [255, 0, 0]], false) ∧
    movingCallWith (SinglePixelMovingEffect.calculateState [255, 0, 0])
        ⟨1, [255, 0, 0], false, false⟩ 2 3 (11 / 10)
      = ([[0, 0, 0], [0, 0, 0]], true) := by
  have hDne : D ≠ 0 := ne_of_gt hD
  have hn1 : (1 : ℚ) ≤ (n : ℚ) := by exact_mod_cast hn
  have hpos : movingPos ⟨D, color, false, false⟩ n (D / 2)
      = pyMin ((n : ℚ) / 2) ((n : ℚ) - 1) := by
    norm_num [movingPos]
    rw [show (n : ℚ) * (D / 2) / D = (n : ℚ) / 2 * (D / D) by ring,
      div_self hDne, mul_one]
  have hidx : pyInt (pyMin ((n : ℚ) / 2) ((n : ℚ) - 1))
      = ((min (n / 2) (n - 1) : ℕ) : ℤ) := by
    rcases Nat.lt_or_ge n 2 with h2 | h2
    · have hn1' : n = 1 := by omega
      subst hn1'
      norm_num [pyMin, pyInt]
    · have h2' : (2 : ℚ) ≤ (n : ℚ) := by exact_mod_cast h2
      rw [pyMin, if_pos (by linarith), pyInt, if_pos (by positivity),
        show ((n : ℚ) / 2) = (((n : ℤ) : ℚ) / ((2 : ℕ) : ℚ)) by push_cast; ring,
        Rat.floor_intCast_div_natCast]
      omega
  have hcall : movingCallWith (SinglePixelMovingEffect.calculateState color)
      ⟨D, color, false, false⟩ n c (D / 2)
      = (SinglePixelMovingEffect.calculateState color
          (pyMin ((n : ℚ) / 2) ((n : ℚ) - 1)) n c, false) := by
    norm_num [movingCallWith, hpos]
    linarith
  refine ⟨by rw [hcall], ?_, ?_, ?_, ?_, ?_⟩
  · rw [hcall, singlePixel_getElem color _ n c (min (n / 2) (n - 1)) (by omega),
      if_pos (by rw [hidx])]
  · intro j hj hne
    rw [hcall, singlePixel_getElem color _ n c j hj,
      if_neg (by rw [hidx]; intro h; exact hne (by exact_mod_cast h))]
  · intro t ht
    simp [movingCallWith, ht]
  · norm_num [movingCallWith, movingPos, pyMod, pyMin, pyMax, pyInt,
      SinglePixelMovingEffect.calculateState, npZeros, List.range_succ,
      List.replicate]
  · norm_num [movingCallWith, movingPos, pyMod, pyMin, pyMax, pyInt,
      SinglePixelMovingEffect.calculateState, npZeros, List.range_succ,
      List.replicate]

/-- Witness for C3 at `D = 1`, a 5x3 device (midpoint pixel `2`). -/
theorem c3_single_pixel_midpoint_and_completion_witness :
    (movingCallWith (SinglePixelMovingEffect.calculateState [10, 20, 30])
        ⟨1, [10, 20, 30], false, false⟩ 5 3 (1 / 2)).1[min (5 / 2) (5 - 1)]?
      = some [10, 20, 30] :=
  (c3_single_pixel_midpoint_and_completion 1 5 3 [10, 20, 30] (by norm_num)
    (by norm_num)).2.1

/-- C9: for every finite (non-pingpong) moving effect of any family, any
spec, any device shape, any start time and any surrounding entries of the
active set, on the first aggregation pass whose relative time exceeds the
duration (completion flag still unset): the completion flag is only
consulted before the call, so the effect is evaluated, its call returns the
all-zero frame and sets the flag, that zero frame is included in the pass's
list of summed (non-removed) contributions at the effect's slot, and the
entry survives the pass with its flag now set; on a following pass, at any
tick time, the set flag is seen before evaluation and the entry is removed,
contributing nothing. -/
theorem c9_completion_lags_removal_by_one_tick
    (calcOf : MovingSpec → ℚ → ℕ → ℕ → Frame ℚ) (spec : MovingSpec)
    (s now1 now2 : ℚ) (n c : ℕ) (pre post pre2 post2 : List (Effect × ℚ))
    (hpp : spec.indefinite_pingpong = false)
    (h1 : spec.total_effect_time < (now1 - s) / 1000000) :
    Effect.callWith calcOf n c ⟨spec, false⟩ ((now1 - s) / 1000000)
      = (npZeros ℚ n c, ⟨spec, true⟩) ∧
    NeoPixelEffectsController.ControllerDevice.contributions
        (Effect.evalOptWith calcOf n c) Effect.is_completed
        (pre ++ (⟨spec, false⟩, s) :: post) now1
      = NeoPixelEffectsController.ControllerDevice.contributions
          (Effect.evalOptWith calcOf n c) Effect.is_completed pre now1
        ++ npZeros ℚ n c
          :: NeoPixelEffectsController.ControllerDevice.contributions
            (Effect.evalOptWith calcOf n c) Effect.is_completed post now1 ∧
    (NeoPixelEffectsController.ControllerDevice.update
        (Effect.evalOptWith calcOf n c) Effect.is_completed
        (pre ++ (⟨spec, false⟩, s) :: post) now1 n c).2
      = (NeoPixelEffectsController.ControllerDevice.update
          (Effect.evalOptWith calcOf n c) Effect.is_completed pre now1 n c).2
        ++ (⟨spec, true⟩, s)
          :: (NeoPixelEffectsController.ControllerDevice.update
            (Effect.evalOptWith calcOf n c) Effect.is_completed post now1
            n c).2 ∧
    (NeoPixelEffectsController.ControllerDevice.update
        (Effect.evalOptWith calcOf n c) Effect.is_completed
        (pre2 ++ (⟨spec, true⟩, s) :: post2) now2 n c).2
      = (NeoPixelEffectsController.ControllerDevice.update
          (Effect.evalOptWith calcOf n c) Effect.is_completed pre2 now2
          n c).2
        ++ (NeoPixelEffectsController.ControllerDevice.update
            (Effect.evalOptWith calcOf n c) Effect.is_completed post2 now2
            n c).2 ∧
    NeoPixelEffectsController.ControllerDevice.contributions
        (Effect.evalOptWith calcOf n c) Effect.is_completed
        (pre2 ++ (⟨spec, true⟩, s) :: post2) now2
      = NeoPixelEffectsController.ControllerDevice.contributions
          (Effect.evalOptWith calcOf n c) Effect.is_completed pre2 now2
        ++ NeoPixelEffectsController.ControllerDevice.contributions
            (Effect.evalOptWith calcOf n c) Effect.is_completed post2
            now2 := by
  have hcall : Effect.callWith calcOf n c ⟨spec, false⟩ ((now1 - s) / 1000000)
      = (npZeros ℚ n c, ⟨spec, true⟩) := by
    simp [Effect.callWith, movingCallWith, hpp, h1]
  refine ⟨hcall, ?_, ?_, ?_, ?_⟩
  · simp only [NeoPixelEffectsController.ControllerDevice.contributions,
      List.filterMap_append, List.filterMap_cons]
    simp [Effect.evalOptWith, hcall, Effect.is_completed]
  · simp only [NeoPixelEffectsController.ControllerDevice.update,
      List.map_append, List.map_cons, List.filterMap_append,
      List.filterMap_cons]
    simp [Effect.evalOptWith, hcall, Effect.is_completed]
  · simp only [NeoPixelEffectsController.ControllerDevice.update,
      List.map_append, List.map_cons, List.filterMap_append,
      List.filterMap_cons]
    simp [Effect.is_completed]
  · simp only [NeoPixelEffectsController.ControllerDevice.contributions,
      List.filterMap_append, List.filterMap_cons]
    simp [Effect.is_completed]

/-- Witness for C9: the single-pixel family, duration 1s, a 2x3 device, no
co-resident effects, start 0, first crossing tick at 1.1s. -/
theorem c9_completion_lags_removal_by_one_tick_witness :
    Effect.callWith
        (fun spec => SinglePixelMovingEffect.calculateState spec.rgb_color)
        2 3 ⟨⟨1, [255, 0, 0], false, false⟩, false⟩ ((1100000 - 0) / 1000000)
      = (npZeros ℚ 2 3, ⟨⟨1, [255, 0, 0], false, false⟩, true⟩) :=
  (c9_completion_lags_removal_by_one_tick
    (fun spec => SinglePixelMovingEffect.calculateState spec.rgb_color)
    ⟨1, [255, 0, 0], false, false⟩ 0 1100000 1200000 2 3 [] [] [] []
    rfl (by norm_num)).1

/-- C1 (code bug): with a single already-completed effect registered, the
aggregation pass executes `del self.active_effects[effect]` for entry `0`
strictly before the for-loop over `active_effects.items()` finishes -
removal is interleaved with the iteration, not deferred past its end. -/
theorem c1_removal_happens_mid_iteration :
    NeoPixelEffectsController.ControllerDevice.updateEvents
        (Effect.evalOpt 2 3) Effect.is_completed
        [(⟨⟨1, [255, 0, 0], false, false⟩, true⟩, 0)] 1000000
      = [.visit 0, .removeActive 0, .iterEnd, .push] := by
  norm_num [NeoPixelEffectsController.ControllerDevice.updateEvents,
    NeoPixelEffectsController.ControllerDevice.updateEventsAux,
    Effect.evalOpt]

/-! ## Aggregation lemmas for C2 -/

theorem npZeros_shape (n c : ℕ) : FrameShape (npZeros ℚ n c) n c := by
  constructor
  · simp [npZeros]
  · intro row hrow
    rw [List.eq_of_mem_replicate hrow]
    simp

theorem zipWith_add_replicate_zero (ra : List ℚ) (c : ℕ) (h : ra.length = c) :
    List.zipWith (· + ·) ra (List.replicate c 0) = ra := by
  subst h
  induction ra with
  | nil => rfl
  | cons x ra ih => simp [List.replicate_succ, ih]

/-- Adding an all-zero frame of matching shape is the identity. -/
theorem addF_npZeros {a : Frame ℚ} {n c : ℕ} (ha : FrameShape a n c) :
    addF a (npZeros ℚ n c) = a := by
  obtain ⟨ha1, ha2⟩ := ha
  subst ha1
  induction a with
  | nil => rfl
  | cons ra a ih =>
    simp only [npZeros, List.length_cons, List.replicate_succ, addF,
      List.zipWith_cons_cons]
    rw [zipWith_add_replicate_zero ra c (ha2 ra (by simp))]
    have := ih (fun r hr => ha2 r (by simp [hr]))
    simp only [addF, npZeros] at this
    rw [this]

/-- Element-wise addition preserves the device shape. -/
theorem addF_shape : ∀ (a b : Frame ℚ) (n c : ℕ),
    FrameShape a n c → FrameShape b n c → FrameShape (addF a b) n c := by
  intro a
  induction a with
  | nil =>
    intro b n c ha _
    obtain ⟨ha1, _⟩ := ha
    simp only [List.length_nil] at ha1
    subst ha1
    exact ⟨by simp [addF], by simp [addF]⟩
  | cons ra a ih =>
    intro b n c ha hb
    cases b with
    | nil =>
      obtain ⟨ha1, _⟩ := ha
      obtain ⟨hb1, _⟩ := hb
      simp only [List.length_nil] at hb1
      subst hb1
      simp at ha1
    | cons rb b =>
      obtain ⟨ha1, ha2⟩ := ha
      obtain ⟨hb1, hb2⟩ := hb
      cases n with
      | zero => simp at ha1
      | succ m =>
        have hrest := ih b m c
          ⟨by simpa using ha1, fun r hr => ha2 r (by simp [hr])⟩
          ⟨by simpa using hb1, fun r hr => hb2 r (by simp [hr])⟩
        constructor
        · simp only [addF, List.zipWith_cons_cons, List.length_cons]
          have := hrest.1
          simp only [addF] at this
          omega
        · intro row hrow
          simp only [addF, List.zipWith_cons_cons, List.mem_cons] at hrow
          rcases hrow with rfl | hrow
          · rw [List.length_zipWith, ha2 ra (by simp), hb2 rb (by simp)]
            simp
          · exact hrest.2 row hrow

theorem clipVal_bounds (x : ℚ) : 0 ≤ clipVal x ∧ clipVal x ≤ 255 := by
  unfold clipVal pyMin pyMax
  split_ifs <;> constructor <;> linarith

/-- Every element of a clipped frame lies in `[0, 255]`. -/
theorem mem_clipF {f : Frame ℚ} {row : List ℚ} {x : ℚ} (hrow : row ∈ clipF f)
    (hx : x ∈ row) : 0 ≤ x ∧ x ≤ 255 := by
  simp only [clipF, List.mem_map] at hrow
  obtain ⟨r0, _, rfl⟩ := hrow
  simp only [List.mem_map] at hx
  obtain ⟨y, _, rfl⟩ := hx
  exact clipVal_bounds y

/-- The fold of the per-entry rows of `state_matrix` equals the fold of the
non-removed contributions alone: entries marked for removal contribute a
zero row, which is neutral. -/
theorem update_fold_eq_contributions_fold {E : Type}
    (eval : E → ℚ → Option (Frame ℚ × E)) (is_completed : E → Bool)
    (now : ℚ) (n c : ℕ) :
    ∀ (entries : List (E × ℚ)) (acc : Frame ℚ), FrameShape acc n c →
      (∀ e s fr e2, (e, s) ∈ entries →
        eval e ((now - s) / 1000000) = some (fr, e2) → FrameShape fr n c) →
      (entries.map (fun es =>
          if is_completed es.1 then (npZeros ℚ n c, (none : Option (E × ℚ)))
          else
            match eval es.1 ((now - es.2) / 1000000) with
            | none => (npZeros ℚ n c, none)
            | some (fr, e2) => (fr, some (e2, es.2)))).foldl
          (fun acc r => addF acc r.1) acc
        = (NeoPixelEffectsController.ControllerDevice.contributions eval
            is_completed entries now).foldl addF acc := by
  intro entries
  induction entries with
  | nil => intro acc _ _; rfl
  | cons es rest ih =>
    intro acc hacc hshape
    have hshape' : ∀ e s fr e2, (e, s) ∈ rest →
        eval e ((now - s) / 1000000) = some (fr, e2) → FrameShape fr n c :=
      fun e s fr e2 hm hev => hshape e s fr e2 (by simp [hm]) hev
    by_cases hcomp : is_completed es.1
    · simp only [List.map_cons, List.foldl_cons, hcomp, if_true,
        NeoPixelEffectsController.ControllerDevice.contributions,
        List.filterMap_cons]
      rw [addF_npZeros hacc]
      exact ih acc hacc hshape'
    · cases heval : eval es.1 ((now - es.2) / 1000000) with
      | none =>
        simp only [List.map_cons, List.foldl_cons, hcomp, if_false,
          Bool.false_eq_true, heval,
          NeoPixelEffectsController.ControllerDevice.contributions,
          List.filterMap_cons, Option.map_none]
        rw [addF_npZeros hacc]
        exact ih acc hacc hshape'
      | some r =>
        obtain ⟨fr, e2⟩ := r
        have hfr : FrameShape fr n c :=
          hshape es.1 es.2 fr e2 (by simp) heval
        simp only [List.map_cons, List.foldl_cons, hcomp, if_false,
          Bool.false_eq_true, heval,
          NeoPixelEffectsController.ControllerDevice.contributions,
          List.filterMap_cons, Option.map_some]
        exact ih (addF acc fr) (addF_shape acc fr n c hacc hfr) hshape'

/-- C2: on every pass the frame forwarded to `device.update_state` (the one
frame `ControllerDevice.update` produces, also when there are zero active
effects) is the element-wise sum of the non-removed effect contributions
clamped to `[0, 255]`: every element is between 0 and 255, the frame equals
the clip of the summed contributions, and with no active effects it is the
all-zero frame. -/
theorem c2_update_clips_summed_contributions {E : Type}
    (eval : E → ℚ → Option (Frame ℚ × E)) (is_completed : E → Bool)
    (entries : List (E × ℚ)) (now : ℚ) (n c : ℕ)
    (hshape : ∀ e s fr e2, (e, s) ∈ entries →
      eval e ((now - s) / 1000000) = some (fr, e2) → FrameShape fr n c) :
    (∀ row ∈ (NeoPixelEffectsController.ControllerDevice.update eval
        is_completed entries now n c).1, ∀ x ∈ row, 0 ≤ x ∧ x ≤ 255) ∧
    (NeoPixelEffectsController.ControllerDevice.update eval is_completed
        entries now n c).1
      = clipF ((NeoPixelEffectsController.ControllerDevice.contributions
          eval is_completed entries now).foldl addF (npZeros ℚ n c)) ∧
    (NeoPixelEffectsController.ControllerDevice.update eval is_completed []
        now n c).1 = npZeros ℚ n c := by
  have hmain : (NeoPixelEffectsController.ControllerDevice.update eval
      is_completed entries now n c).1
      = clipF ((NeoPixelEffectsController.ControllerDevice.contributions
          eval is_completed entries now).foldl addF (npZeros ℚ n c)) := by
    simp only [NeoPixelEffectsController.ControllerDevice.update]
    rw [update_fold_eq_contributions_fold eval is_completed now n c entries
      (npZeros ℚ n c) (npZeros_shape n c) hshape]
  refine ⟨?_, hmain, ?_⟩
  · intro row hrow x hx
    rw [hmain] at hrow
    exact mem_clipF hrow hx
  · simp only [NeoPixelEffectsController.ControllerDevice.update,
      List.map_nil, List.foldl_nil, npZeros, clipF, List.map_replicate]
    norm_num [clipVal, pyMin, pyMax]

/-- Witness for C2: one never-completed effect contributing the single-row
frame `[[300, -5, 7]]` on a 1x3 device; the forwarded frame is the clipped
`[[255, 0, 7]]`. -/
theorem c2_update_clips_summed_contributions_witness :
    (NeoPixelEffectsController.ControllerDevice.update
        (fun (_ : Unit) (_ : ℚ) => some ([[300, -5, 7]], ()))
        (fun _ => false) [((), 0)] 0 1 3).1 = [[255, 0, 7]] := by
  have h := (c2_update_clips_summed_contributions
    (fun (_ : Unit) (_ : ℚ) => some ([[300, -5, 7]], ()))
    (fun _ => false) [((), 0)] 0 1 3
    (by
      intro e s fr e2 _ hev
      simp only [Option.some.injEq, Prod.mk.injEq] at hev
      rw [← hev.1]
      exact ⟨rfl, by intro row hrow; simp at hrow; rw [hrow]; rfl⟩)).2.1
  rw [h]
  norm_num [NeoPixelEffectsController.ControllerDevice.contributions,
    List.filterMap_cons, addF, npZeros, List.replicate, clipF, clipVal,
    pyMin, pyMax]

/-- C4 counterexample: a device holding a faulting effect (id `0`) followed
by a healthy effect (id `1`).  The aggregation pass aborts with the fault
(the healthy effect is never evaluated and no frame reaches the device),
and a one-tick run over this device plus a second, healthy device
terminates with the fault instead of updating the second device and
continuing. -/
theorem c4_fault_aborts_pass_and_loop_counterexample :
    NeoPixelEffectsController.ControllerDevice.updateE
        (fun (e : ℕ) (_ : ℚ) =>
          if e = 0 then .error () else .ok (some (npZeros ℚ 1 3, e)))
        (fun _ => false) [(0, 0), (1, 0)] 0 1 3 = .error () ∧
    NeoPixelEffectsController.runE
        (fun (e : ℕ) (_ : ℚ) =>
          if e = 0 then .error () else .ok (some (npZeros ℚ 1 3, e)))
        (fun _ => false) 1 3 20000 1 [[(0, 0), (1, 0)], [(5, 0)]] 0
      = .error () := by
  constructor
  · norm_num [NeoPixelEffectsController.ControllerDevice.updateE,
      NeoPixelEffectsController.ControllerDevice.updateResultsE, Except.map]
  · norm_num [NeoPixelEffectsController.runE,
      NeoPixelEffectsController.updateAllE,
      NeoPixelEffectsController.ControllerDevice.updateE,
      NeoPixelEffectsController.ControllerDevice.updateResultsE, Except.map]

/-- C4 amended: an uncaught fault raised while evaluating an effect
propagates: the device's aggregation pass aborts with the fault (the
remaining effects are not evaluated, no frame is forwarded), the tick
aborts (the remaining devices are not updated), and the scheduler loop
terminates with the fault; it is not only `stop()` that can end the loop. -/
theorem c4_fault_propagates_and_stops_loop {E : Type}
    (eval : E → ℚ → Except Unit (Option (Frame ℚ × E)))
    (is_completed : E → Bool) (e : E) (s : ℚ) (rest : List (E × ℚ))
    (devs : List (List (E × ℚ))) (now : ℚ) (n c : ℕ) (fuel : ℕ)
    (period_us : ℚ) (hnc : is_completed e = false)
    (herr : eval e ((now - s) / 1000000) = .error ()) :
    NeoPixelEffectsController.ControllerDevice.updateE eval is_completed
        ((e, s) :: rest) now n c = .error () ∧
    NeoPixelEffectsController.updateAllE eval is_completed now n c
        (((e, s) :: rest) :: devs) = .error () ∧
    NeoPixelEffectsController.runE eval is_completed n c period_us (fuel + 1)
        (((e, s) :: rest) :: devs) now = .error () := by
  have h1 : NeoPixelEffectsController.ControllerDevice.updateResultsE eval
      is_completed now n c ((e, s) :: rest) = .error () := by
    simp [NeoPixelEffectsController.ControllerDevice.updateResultsE, hnc, herr]
  have h2 : NeoPixelEffectsController.ControllerDevice.updateE eval
      is_completed ((e, s) :: rest) now n c = .error () := by
    simp [NeoPixelEffectsController.ControllerDevice.updateE, h1, Except.map]
  have h3 : NeoPixelEffectsController.updateAllE eval is_completed now n c
      (((e, s) :: rest) :: devs) = .error () := by
    simp [NeoPixelEffectsController.updateAllE, h2]
  exact ⟨h2, h3, by simp [NeoPixelEffectsController.runE, h3]⟩

/-- Witness for the amended C4 with a single always-faulting effect. -/
theorem c4_fault_propagates_and_stops_loop_witness :
    NeoPixelEffectsController.runE
        (fun (_ : ℕ) (_ : ℚ) => .error ()) (fun _ => false) 2 3 20000 1
        [[(7, 0)]] 5 = .error () :=
  (c4_fault_propagates_and_stops_loop (fun (_ : ℕ) (_ : ℚ) => .error ())
    (fun _ => false) 7 0 [] [] 5 2 3 0 20000 rfl rfl).2.2

/-! ## Exception-aware evaluation for C7 -/

/-- C7 counterexample: a Gaussian spec with the out-of-domain `sigma = -1`
is accepted at construction (the spec constructors validate nothing) and
its first evaluation, at `relative_time = 0`, succeeds with a well-defined
frame instead of being rejected. -/
theorem c7_negative_sigma_never_rejected :
    (movingCallE (GaussianMovingEffect.calculateStateE [255, 0, 0] (-1))
        ⟨1, [255, 0, 0], false, false⟩ 2 3 0).isOk = true := by
  norm_num [movingCallE, GaussianMovingEffect.calculateStateE, pyDiv,
    Except.isOk, Except.toBool]

/-- C7 amended: spec construction performs no validation, and evaluation
rejects out-of-domain parameters only when they trigger a division by zero:
with any nonzero `sigma` and nonzero duration every Gaussian evaluation
succeeds (negative values included, silently), while `sigma = 0` and
`total_effect_time = 0` surface `ZeroDivisionError` at the first
evaluation. -/
theorem c7_only_zero_division_is_surfaced (sigma D : ℚ) (color : List ℚ)
    (rev pp : Bool) (n c : ℕ) (t : ℚ) (hs : sigma ≠ 0) (hD : D ≠ 0) :
    (movingCallE (GaussianMovingEffect.calculateStateE color sigma)
        ⟨D, color, rev, pp⟩ n c t).isOk = true ∧
    movingCallE (GaussianMovingEffect.calculateStateE color 0)
        ⟨1, color, rev, pp⟩ n c 0 = .error .zeroDivision ∧
    movingCallE (GaussianMovingEffect.calculateStateE color sigma)
        ⟨0, color, rev, false⟩ n c 0 = .error .zeroDivision := by
  refine ⟨?_, ?_, ?_⟩
  · unfold movingCallE
    split
    · rfl
    · simp [pyDiv, hD, GaussianMovingEffect.calculateStateE, hs, Except.isOk,
        Except.toBool]
  · norm_num [movingCallE, GaussianMovingEffect.calculateStateE, pyDiv]
  · norm_num [movingCallE, pyDiv]

/-- Witness for the amended C7: an in-domain Gaussian evaluation succeeds. -/
theorem c7_only_zero_division_is_surfaced_witness :
    (movingCallE (GaussianMovingEffect.calculateStateE [255, 0, 0] 2)
        ⟨1, [255, 0, 0], false, false⟩ 2 3 0).isOk = true :=
  (c7_only_zero_division_is_surfaced 2 1 [255, 0, 0] false false 2 3 0
    (by norm_num) (by norm_num)).1

/-- Pixel row 0 of the default sinus effect on a 2x3 device: each channel
is `16 + (0.5 + 0.5 * sin rel_cycle) * 8` with
`rel_cycle = fract (2 * pi * t)`. -/
theorem sinusSpec0_row0 (t : ℝ) :
    (SinusEffect.call sinusSpec0 2 3 t)[0]?
      = some (List.replicate 3
          (16 + (0.5 + 0.5 * Real.sin (Int.fract (2 * Real.pi * t))) * 8)) := by
  simp only [SinusEffect.call, sinusSpec0]
  rw [List.getElem?_map, List.getElem?_range (by norm_num)]
  norm_num [npLinspace, List.zipWith, List.replicate]

/-- C6 counterexample: with `cycle_time = 1` the frame at
`relative_time = cycle_time` differs from the frame at `0`: because `% 1.0`
applies after the multiplication by `2 * pi`, the phase at `t = 1` is
`fract (2 * pi) = 2 * pi - 6 > 0`, whose sine is positive, so pixel 0
carries `20 + 4 * sin (2 * pi - 6) > 20` instead of `20`. -/
theorem c6_frame_not_periodic_in_cycle_time :
    SinusEffect.call sinusSpec0 2 3 1 ≠ SinusEffect.call sinusSpec0 2 3 0 := by
  have hfloor : (⌊2 * Real.pi⌋ : ℤ) = 6 := by
    rw [Int.floor_eq_iff]
    constructor
    · have := Real.pi_gt_d6
      norm_num
      linarith
    · have := Real.pi_lt_d2
      norm_num
      linarith
  have hfract : Int.fract (2 * Real.pi) = 2 * Real.pi - 6 := by
    rw [Int.fract, hfloor]
    norm_num
  have hsin : 0 < Real.sin (2 * Real.pi - 6) := by
    apply Real.sin_pos_of_pos_of_lt_pi
    · have := Real.pi_gt_d6
      linarith
    · have := Real.pi_lt_d2
      linarith
  intro h
  have h0 : (SinusEffect.call sinusSpec0 2 3 1)[0]?
      = (SinusEffect.call sinusSpec0 2 3 0)[0]? := by rw [h]
  rw [sinusSpec0_row0 1, sinusSpec0_row0 0] at h0
  simp only [mul_one, mul_zero, Int.fract_zero, Real.sin_zero,
    Option.some.injEq, hfract] at h0
  have h00 := congrArg (fun l : List ℝ => l.headD 0) h0
  simp only [List.replicate, List.headD_cons] at h00
  nlinarith [hsin]

/-- C6 amended: the phase is `(2 * pi * relative_time / cycle_time) mod 1`
(the `% 1.0` binds after the `2 * pi` multiplication), so the frame is
periodic in relative time with period `cycle_time / (2 * pi)`, not
`cycle_time`: for every `t`, the frame at `t + cycle_time / (2 * pi)`
equals the frame at `t`.  The rescaling of the sine sample to `[0, 1]` and
the per-pixel value `base_color + sine_sample * additional_color` are as
the claim states, by definition of `SinusEffect.call`. -/
theorem c6_sinus_period_is_cycle_time_div_two_pi (spec : SinusSpec)
    (n c : ℕ) (t : ℝ) (h : spec.cycle_time ≠ 0) :
    SinusEffect.call spec n c (t + (spec.cycle_time : ℝ) / (2 * Real.pi))
      = SinusEffect.call spec n c t := by
  have hc : ((spec.cycle_time : ℚ) : ℝ) ≠ 0 := by exact_mod_cast h
  have hπ : (2 * Real.pi) ≠ 0 := by positivity
  have key : 2 * Real.pi *
        ((t + (spec.cycle_time : ℝ) / (2 * Real.pi)) / (spec.cycle_time : ℝ))
      = 2 * Real.pi * (t / (spec.cycle_time : ℝ)) + 1 := by
    field_simp
    ring
  unfold SinusEffect.call
  rw [key, Int.fract_add_one]

/-- Witness for the amended C6 at the default spec and `t = 0`. -/
theorem c6_sinus_period_is_cycle_time_div_two_pi_witness :
    SinusEffect.call sinusSpec0 2 3
        (0 + (sinusSpec0.cycle_time : ℝ) / (2 * Real.pi))
      = SinusEffect.call sinusSpec0 2 3 0 :=
  c6_sinus_period_is_cycle_time_div_two_pi sinusSpec0 2 3 0
    (by norm_num [sinusSpec0])

end NeopixelEffects
